import Mathlib

set_option maxRecDepth 100000

/-!
Verification of the product-catalog client in `src/main.py`
(`Product.from_dict`, `ShopifyAPI.get_products`, `ShopifyAPI.get_all_products`,
`ShopifyAPI.search_products`, `export_to_json`) against its design document.

Modelling conventions:
* Python dict payloads become structures with `Option` fields (`none` models an
  absent key or a JSON `null` value, which `dict.get` both turn into `None`).
* A Python exception is an `Except PyError` error value; `requests` exceptions
  that the source catches are instead part of the transport model (`HttpResult`).
* Python strings manipulated character-wise by the pagination code are
  `List Char`; `str.split`, `in`, and indexing are given explicit executable
  translations (`pySplit`, `containsSub`, pattern matches) with the same
  semantics, including the `IndexError` of an out-of-range `[1]`.
* The network is a trace: a list of `HttpResult`, one per issued request, in
  request order.  Each operation also returns the list of requests it issued.
-/

/-- Python exception kinds the source can raise or catch around the core. -/
inductive PyError where
  | keyError (key : String)
  | typeError
  | indexError
deriving DecidableEq

/-- One element of a raw entry's `variants` sub-list (fields read with `.get`). -/
structure RawVariant where
  price : Option String
  inventory_quantity : Option Int
deriving DecidableEq

/-- One raw catalog entry as decoded from the response body.  Every field is
optional: `none` models the key being absent (or `null`). -/
structure RawProduct where
  id : Option Int
  title : Option String
  handle : Option String
  vendor : Option String
  product_type : Option String
  status : Option String
  variants : Option (List RawVariant)
deriving DecidableEq

/-- The `Product` dataclass of `src/main.py` (lines 11-21). -/
structure Product where
  id : Int
  title : String
  handle : String
  vendor : String
  product_type : String
  status : String
  price : Option String
  inventory_quantity : Option Int
deriving DecidableEq

/-- Translation of a Python `data['k']` access: the value, or a `KeyError`. -/
def reqField {α : Type} (o : Option α) (key : String) : Except PyError α :=
  match o with
  | some v => Except.ok v
  | none => Except.error (PyError.keyError key)

/-- Embedding of `Product.from_dict` (`src/main.py` lines 23-43).  The variant
lookup mirrors `if data.get('variants') and len(data['variants']) > 0`; the
required-field reads mirror `data['id']`, ..., `data['status']` in source
order, each raising `KeyError` when absent. -/
def Product.from_dict (data : RawProduct) : Except PyError Product :=
  let pq : Option String × Option Int :=
    match data.variants with
    | some (fv :: _) => (fv.price, fv.inventory_quantity)
    | _ => (none, none)
  do
    let i ← reqField data.id "id"
    let t ← reqField data.title "title"
    let hd ← reqField data.handle "handle"
    let vd ← reqField data.vendor "vendor"
    let pt ← reqField data.product_type "product_type"
    let st ← reqField data.status "status"
    return ⟨i, t, hd, vd, pt, st, pq.1, pq.2⟩

/-! ## Character-list string operations

The pagination code of `get_all_products` (lines 130-139) works on the raw
`Link` header text via `split` and `in`.  We embed Python strings there as
`List Char` and give the string primitives explicit definitions. -/

/-- Python's substring test `needle in hay`. -/
def containsSub (needle : List Char) : List Char → Bool
  | [] => needle.isEmpty
  | c :: cs => needle.isPrefixOf (c :: cs) || containsSub needle cs

/-- Split a list at the first occurrence of `sep`: returns the part before and
the part after that occurrence, or `none` when `sep` does not occur. -/
def breakOn (sep : List Char) : List Char → Option (List Char × List Char)
  | [] => none
  | c :: cs =>
    if sep.isPrefixOf (c :: cs) then some ([], (c :: cs).drop sep.length)
    else
      match breakOn sep cs with
      | some (a, b) => some (c :: a, b)
      | none => none

/-- Fuelled worker for `pySplit`; the fuel only bounds recursion depth and is
always sufficient at `s.length` because each step strips at least one
character (for a nonempty separator). -/
def pySplitGo (sep : List Char) : Nat → List Char → List (List Char)
  | 0, s => [s]
  | fuel + 1, s =>
    match breakOn sep s with
    | none => [s]
    | some (a, b) => a :: pySplitGo sep fuel b

/-- Python's `s.split(sep)` for a nonempty separator. -/
def pySplit (sep s : List Char) : List (List Char) :=
  pySplitGo sep s.length s

/-- Python's `s.split(sep)[0]`: the part of `s` before the first occurrence of
`sep` (all of `s` when `sep` does not occur).  `split` never returns an empty
list, so the `headD` default is unreachable. -/
def pyIdx0 (sep s : List Char) : List Char :=
  (pySplit sep s).headD s

/-- The marker substring `rel="next"` scanned for in the `Link` header. -/
def relNextMark : List Char := "rel=\"next\"".toList

/-- The substring `page_info=` that the token extraction splits on. -/
def pageInfoEqCh : List Char := "page_info=".toList

/-- Embedding of `link.split('page_info=')[1].split('&')[0].split('>')[0]`
(line 136).  Returns `none` when `[1]` is out of range, i.e. the Python code
would raise `IndexError`. -/
def extractPageInfo (chunk : List Char) : Option (List Char) :=
  match pySplit pageInfoEqCh chunk with
  | _ :: seg :: _ => some (pyIdx0 ['>'] (pyIdx0 ['&'] seg))
  | _ => none

/-- What the pagination check of lines 130-139 decides to do next. -/
inductive LinkAction where
  | stop
  | next (tok : List Char)
  | raiseIndex
  | stale
deriving DecidableEq

/-- Embedding of lines 130-139 of `get_all_products`: inspect the `Link`
header (absent, or some text), look for `rel="next"`, and if present take the
first comma-separated chunk containing it and extract the continuation token.
`stop` = break out of the loop (header absent, empty — which is falsy — or
without the marker); `next tok` = continue with `page_info = tok`;
`raiseIndex` = the extraction raises `IndexError`; `stale` = the for-loop
found no matching chunk so `page_info` is left unchanged and the loop
continues (this branch is unreachable: a comma-free substring of the header
always lies inside one chunk). -/
def linkActionOf : Option (List Char) → LinkAction
  | none => LinkAction.stop
  | some h =>
    if containsSub relNextMark h then
      match (pySplit [','] h).find? (fun l => containsSub relNextMark l) with
      | none => LinkAction.stale
      | some chunk =>
        match extractPageInfo chunk with
        | none => LinkAction.raiseIndex
        | some tok => LinkAction.next tok
    else LinkAction.stop

/-! ## Transport model -/

/-- State of the `products` key in a successful response's JSON body:
`absent` (so `data.get('products', [])` yields `[]`), `null` (so it yields
`None`), or an actual list. -/
inductive ProductsField where
  | absent
  | null
  | list (ps : List RawProduct)
deriving DecidableEq

/-- Embedding of `data.get('products', [])`: `none` is Python `None`. -/
def pyGetProducts : ProductsField → Option (List RawProduct)
  | ProductsField.absent => some []
  | ProductsField.null => none
  | ProductsField.list ps => some ps

/-- A successful (2xx) response: parsed body state and optional `Link` header. -/
structure HttpSuccess where
  products : ProductsField
  link : Option (List Char)
deriving DecidableEq

/-- Outcome of one `requests.get` + `raise_for_status`: `failure` covers every
`requests.exceptions.RequestException` (transport error or non-2xx status). -/
inductive HttpResult where
  | failure
  | success (pg : HttpSuccess)
deriving DecidableEq

/-- One issued request's query parameters (only those the source sends). -/
structure Request where
  limit : Nat
  status : Option String
  page_info : Option (List Char)
  title : Option String
deriving DecidableEq

/-- Result of `get_all_products` on a finite response trace: `ok` = the
function returned normally, `raised` = an uncaught exception propagated,
`outOfTrace` = the loop wanted to issue a request beyond the provided trace
(carrying the `page_info` it would have sent). -/
inductive Outcome where
  | ok (products : List Product)
  | raised (e : PyError)
  | outOfTrace (pi : Option (List Char))
deriving DecidableEq

/-! ## The three fetch operations -/

/-- Embedding of `ShopifyAPI.get_products` (lines 64-92).  Takes the response
to its single request; returns the Python result (a value or an uncaught
exception) together with the one request issued.  A `RequestException` is
caught: the function prints and returns `[]`.  A `KeyError` from
`Product.from_dict` or the `TypeError` of iterating `None` is not caught. -/
def get_products (limit : Nat) (status : String) (resp : HttpResult) :
    Except PyError (List Product) × List Request :=
  let req : Request := ⟨min limit 250, some status, none, none⟩
  match resp with
  | HttpResult.failure => (Except.ok [], [req])
  | HttpResult.success pg =>
    match pyGetProducts pg.products with
    | none => (Except.error PyError.typeError, [req])
    | some ps => (ps.mapM Product.from_dict, [req])

/-- Embedding of `ShopifyAPI.search_products` (lines 147-175): same shape as
`get_products` but the request carries `title` instead of `status`. -/
def search_products (query : String) (limit : Nat) (resp : HttpResult) :
    Except PyError (List Product) × List Request :=
  let req : Request := ⟨min limit 250, none, none, some query⟩
  match resp with
  | HttpResult.failure => (Except.ok [], [req])
  | HttpResult.success pg =>
    match pyGetProducts pg.products with
    | none => (Except.error PyError.typeError, [req])
    | some ps => (ps.mapM Product.from_dict, [req])

/-- Embedding of the `while True` loop of `get_all_products` (lines 107-143),
consuming one trace element per request.  Mirrors the source order: issue the
request (`limit = 250`, the status filter, and `page_info` when set); on a
`RequestException` print and `break`; read `data.get('products', [])`; `break`
when falsy (`None` or `[]`); normalize the page (a `KeyError` propagates);
extend the accumulator; then run the `Link`-header check of lines 130-139. -/
def getAllLoop (status : String) :
    Option (List Char) → List Product → List HttpResult → Outcome × List Request
  | pi, _acc, [] => (Outcome.outOfTrace pi, [])
  | pi, acc, resp :: rest =>
    let req : Request := ⟨250, some status, pi, none⟩
    match resp with
    | HttpResult.failure => (Outcome.ok acc, [req])
    | HttpResult.success pg =>
      match pyGetProducts pg.products with
      | none => (Outcome.ok acc, [req])
      | some [] => (Outcome.ok acc, [req])
      | some (d :: ds) =>
        match (d :: ds).mapM Product.from_dict with
        | Except.error e => (Outcome.raised e, [req])
        | Except.ok prods =>
          match linkActionOf pg.link with
          | LinkAction.stop => (Outcome.ok (acc ++ prods), [req])
          | LinkAction.raiseIndex => (Outcome.raised PyError.indexError, [req])
          | LinkAction.next tok =>
            let r := getAllLoop status (some tok) (acc ++ prods) rest
            (r.1, req :: r.2)
          | LinkAction.stale =>
            let r := getAllLoop status pi (acc ++ prods) rest
            (r.1, req :: r.2)

/-- Embedding of `ShopifyAPI.get_all_products` (lines 94-145): run the loop
from an absent `page_info` and an empty accumulator. -/
def get_all_products (status : String) (trace : List HttpResult) :
    Outcome × List Request :=
  getAllLoop status none [] trace

/-! ## Lemmas about the string primitives -/

theorem containsSub_iff (needle hay : List Char) :
    containsSub needle hay = true ↔ needle <:+: hay := by
  induction hay with
  | nil => simp [containsSub, List.isEmpty_iff]
  | cons c cs ih =>
    simp [containsSub, Bool.or_eq_true, List.isPrefixOf_iff_prefix, ih,
      List.infix_cons_iff, or_comm]

theorem breakOn_eq_none {sep : List Char} (hsep : sep ≠ []) (s : List Char) :
    breakOn sep s = none ↔ ¬ sep <:+: s := by
  induction s with
  | nil => simp [breakOn, hsep]
  | cons c cs ih =>
    by_cases hpre : sep.isPrefixOf (c :: cs)
    · have : sep <:+: c :: cs :=
        (List.isPrefixOf_iff_prefix.mp hpre).isInfix
      simp [breakOn, hpre, this]
    · cases heq : breakOn sep cs with
      | none =>
        have hni : ¬ sep <:+: cs := (ih).mp heq
        have : ¬ sep <:+: c :: cs := by
          rw [List.infix_cons_iff]
          rintro (h | h)
          · exact hpre (List.isPrefixOf_iff_prefix.mpr h)
          · exact hni h
        simp [breakOn, hpre, heq, this]
      | some p =>
        have hin : sep <:+: cs := by
          by_contra hni
          rw [← ih] at hni
          simp [heq] at hni
        simp [breakOn, hpre, heq, List.infix_cons hin]

theorem breakOn_some_parts {sep s a b : List Char}
    (h : breakOn sep s = some (a, b)) : s = a ++ sep ++ b := by
  induction s generalizing a b with
  | nil => simp [breakOn] at h
  | cons c cs ih =>
    by_cases hpre : sep.isPrefixOf (c :: cs)
    · simp [breakOn, hpre] at h
      obtain ⟨t, ht⟩ := List.isPrefixOf_iff_prefix.mp hpre
      obtain ⟨rfl, hb⟩ := h
      have hdrop : (c :: cs).drop sep.length = t := by
        rw [← ht, List.drop_left]
      simp only [List.nil_append]
      rw [← ht, ← hb, hdrop]
    · simp [breakOn, hpre] at h
      cases heq : breakOn sep cs with
      | none => simp [heq] at h
      | some p =>
        obtain ⟨x, y⟩ := p
        simp [heq] at h
        obtain ⟨rfl, rfl⟩ := h
        have := ih heq
        simp [this]

theorem breakOn_some_length {sep s a b : List Char} (hsep : sep ≠ [])
    (h : breakOn sep s = some (a, b)) : b.length < s.length := by
  have hparts := breakOn_some_parts h
  have hpos : 0 < sep.length := List.length_pos.mpr hsep
  rw [hparts]
  simp only [List.length_append]
  omega

theorem pySplitGo_fuel {sep : List Char} (hsep : sep ≠ []) :
    ∀ (f₁ f₂ : Nat) (s : List Char), s.length ≤ f₁ → s.length ≤ f₂ →
      pySplitGo sep f₁ s = pySplitGo sep f₂ s := by
  intro f₁
  induction f₁ with
  | zero =>
    intro f₂ s h₁ _
    have hs : s = [] := List.length_eq_zero.mp (Nat.le_zero.mp h₁)
    subst hs
    cases f₂ <;> simp [pySplitGo, breakOn]
  | succ k ih =>
    intro f₂ s h₁ h₂
    cases f₂ with
    | zero =>
      have hs : s = [] := List.length_eq_zero.mp (Nat.le_zero.mp h₂)
      subst hs
      simp [pySplitGo, breakOn]
    | succ m =>
      cases heq : breakOn sep s with
      | none => simp [pySplitGo, heq]
      | some p =>
        obtain ⟨a, b⟩ := p
        have hb := breakOn_some_length hsep heq
        have hbk : b.length ≤ k := by omega
        have hbm : b.length ≤ m := by omega
        simp [pySplitGo, heq, ih m b hbk hbm]

theorem pySplit_of_none {sep s : List Char} (h : breakOn sep s = none) :
    pySplit sep s = [s] := by
  cases s with
  | nil => rfl
  | cons c cs => simp [pySplit, pySplitGo, h]

theorem pySplit_cons {sep s a b : List Char} (hsep : sep ≠ [])
    (h : breakOn sep s = some (a, b)) : pySplit sep s = a :: pySplit sep b := by
  cases s with
  | nil => simp [breakOn] at h
  | cons c cs =>
    have hb := breakOn_some_length hsep h
    simp only [List.length_cons] at hb
    simp only [pySplit, List.length_cons, pySplitGo, h]
    exact congrArg (a :: ·) (pySplitGo_fuel hsep cs.length b.length b (by omega) le_rfl)

theorem pyIdx0_of_none {sep s : List Char} (h : breakOn sep s = none) :
    pyIdx0 sep s = s := by
  simp [pyIdx0, pySplit_of_none h]

theorem pyIdx0_of_some {sep s a b : List Char} (hsep : sep ≠ [])
    (h : breakOn sep s = some (a, b)) : pyIdx0 sep s = a := by
  simp [pyIdx0, pySplit_cons hsep h]

theorem breakOn_first {sep : List Char} (hsep : sep ≠ []) :
    ∀ a b : List Char, ¬ sep <:+: (a ++ sep.dropLast) →
      breakOn sep (a ++ sep ++ b) = some (a, b) := by
  intro a
  induction a with
  | nil =>
    intro b _
    obtain ⟨c, sep', rfl⟩ := List.exists_cons_of_ne_nil hsep
    have hpre : (c :: sep').isPrefixOf ((c :: sep') ++ b) = true :=
      List.isPrefixOf_iff_prefix.mpr (List.prefix_append _ _)
    show breakOn (c :: sep') (c :: (sep' ++ b)) = some ([], b)
    simp only [breakOn]
    rw [if_pos (by exact hpre)]
    simp [List.drop_left']
  | cons d a' ih =>
    intro b hfirst
    have hnpre : ¬ sep.isPrefixOf (d :: (a' ++ sep ++ b)) = true := by
      intro hpre
      have h1 : sep <+: (d :: a') ++ sep ++ b := by
        simpa using List.isPrefixOf_iff_prefix.mp hpre
      have hsplit : (d :: a') ++ sep ++ b
          = ((d :: a') ++ sep.dropLast) ++ ([sep.getLast hsep] ++ b) := by
        conv_lhs => rw [← List.dropLast_concat_getLast hsep]
        simp [List.append_assoc]
      have h2 : ((d :: a') ++ sep.dropLast) <+: (d :: a') ++ sep ++ b :=
        ⟨[sep.getLast hsep] ++ b, hsplit.symm⟩
      have hlen : sep.length ≤ ((d :: a') ++ sep.dropLast).length := by
        have : 0 < sep.length := List.length_pos.mpr hsep
        simp only [List.length_append, List.length_cons, List.length_dropLast]
        omega
      exact hfirst (List.prefix_of_prefix_length_le h1 h2 hlen).isInfix
    have hfirst' : ¬ sep <:+: (a' ++ sep.dropLast) := fun h =>
      hfirst (by simpa using List.infix_cons h)
    show breakOn sep (d :: (a' ++ sep ++ b)) = some (d :: a', b)
    simp only [breakOn]
    rw [if_neg hnpre]
    have := ih b hfirst'
    simp only [List.append_assoc] at this ⊢
    rw [this]

theorem breakOn_single_append {c : Char} {a : List Char} (hc : c ∉ a)
    (b : List Char) :
    breakOn [c] (a ++ b) = (breakOn [c] b).map (fun p => (a ++ p.1, p.2)) := by
  induction a with
  | nil =>
    cases h : breakOn [c] b with
    | none => simp [h]
    | some p => simp [h]
  | cons d a' ih =>
    have hcd : ¬ ([c].isPrefixOf (d :: (a' ++ b)) = true) := by
      simp only [List.isPrefixOf, Bool.and_eq_true, beq_iff_eq]
      rintro ⟨rfl, -⟩
      exact hc (List.mem_cons_self _ _)
    have hca' : c ∉ a' := fun h => hc (List.mem_cons_of_mem _ h)
    show breakOn [c] (d :: (a' ++ b)) = _
    simp only [breakOn]
    rw [if_neg hcd, ih hca']
    cases h : breakOn [c] b with
    | none => simp
    | some p => simp

theorem breakOn_single_none {c : Char} {s : List Char} (hc : c ∉ s) :
    breakOn [c] s = none := by
  induction s with
  | nil => rfl
  | cons d s' ih =>
    have hcd : ¬ ([c].isPrefixOf (d :: s') = true) := by
      simp only [List.isPrefixOf, Bool.and_eq_true, beq_iff_eq]
      rintro ⟨rfl, -⟩
      exact hc (List.mem_cons_self _ _)
    have : c ∉ s' := fun h => hc (List.mem_cons_of_mem _ h)
    simp [breakOn, hcd, ih this]

theorem pyIdx0_single_append {c : Char} {a : List Char} (hc : c ∉ a)
    (b : List Char) : pyIdx0 [c] (a ++ b) = a ++ pyIdx0 [c] b := by
  cases h : breakOn [c] b with
  | none =>
    have hab : breakOn [c] (a ++ b) = none := by
      rw [breakOn_single_append hc, h]; rfl
    rw [pyIdx0_of_none hab, pyIdx0_of_none h]
  | some p =>
    obtain ⟨x, y⟩ := p
    have hab : breakOn [c] (a ++ b) = some (a ++ x, y) := by
      rw [breakOn_single_append hc, h]; rfl
    rw [pyIdx0_of_some (by simp) hab, pyIdx0_of_some (by simp) h]

theorem pyIdx0_cons_self (c : Char) (s : List Char) :
    pyIdx0 [c] (c :: s) = [] := by
  have h : breakOn [c] (c :: s) = some ([], s) := by
    simp [breakOn, List.isPrefixOf]
  rw [pyIdx0_of_some (by simp) h]

theorem pyIdx0_cons_ne {c d : Char} (h : c ≠ d) (s : List Char) :
    ∃ w, pyIdx0 [c] (d :: s) = d :: w := by
  have hcd : ¬ ([c].isPrefixOf (d :: s) = true) := by
    simp only [List.isPrefixOf, Bool.and_eq_true, beq_iff_eq]
    rintro ⟨rfl, -⟩
    exact h rfl
  cases heq : breakOn [c] s with
  | none =>
    have : breakOn [c] (d :: s) = none := by simp [breakOn, hcd, heq]
    exact ⟨s, pyIdx0_of_none this⟩
  | some p =>
    obtain ⟨x, y⟩ := p
    have : breakOn [c] (d :: s) = some (d :: x, y) := by simp [breakOn, hcd, heq]
    exact ⟨x, pyIdx0_of_some (by simp) this⟩

theorem extractPageInfo_of_shape (pre tok suf : List Char)
    (hpre : ¬ pageInfoEqCh <:+: (pre ++ pageInfoEqCh.dropLast))
    (hrest : ¬ pageInfoEqCh <:+: (tok ++ suf))
    (hamp : '&' ∉ tok) (hgt : '>' ∉ tok)
    (hsuf : suf.head? = some '&' ∨ suf.head? = some '>') :
    extractPageInfo (pre ++ pageInfoEqCh ++ (tok ++ suf)) = some tok := by
  have hsep : pageInfoEqCh ≠ [] := by decide
  have hbrk := breakOn_first hsep pre (tok ++ suf) hpre
  have hnone : breakOn pageInfoEqCh (tok ++ suf) = none :=
    (breakOn_eq_none hsep _).mpr hrest
  have hsplit : pySplit pageInfoEqCh (pre ++ pageInfoEqCh ++ (tok ++ suf))
      = [pre, tok ++ suf] := by
    rw [pySplit_cons hsep hbrk, pySplit_of_none hnone]
  rw [extractPageInfo, hsplit]
  have hgoal : pyIdx0 ['>'] (pyIdx0 ['&'] (tok ++ suf)) = tok := by
    cases suf with
    | nil => simp at hsuf
    | cons d suf' =>
      simp only [List.head?_cons, Option.some.injEq] at hsuf
      rcases hsuf with rfl | rfl
      · rw [pyIdx0_single_append hamp, pyIdx0_cons_self, List.append_nil,
          pyIdx0_of_none (breakOn_single_none hgt)]
      · rw [pyIdx0_single_append hamp]
        obtain ⟨w, hw⟩ := pyIdx0_cons_ne (show '&' ≠ '>' by decide) suf'
        rw [hw, pyIdx0_single_append hgt, pyIdx0_cons_self, List.append_nil]
  exact congrArg some hgoal

/-! ## Page descriptions and the main loop lemma -/

/-- A successful page of the trace: its raw entries and its `Link` header. -/
structure PageDesc where
  raw : List RawProduct
  link : Option (List Char)

/-- The `HttpResult` a `PageDesc` stands for. -/
def mkPage (p : PageDesc) : HttpResult :=
  HttpResult.success ⟨ProductsField.list p.raw, p.link⟩

/-- A page on which the fetch-all loop continues: it is non-empty, every entry
normalizes, and its `Link` header yields a continuation token. -/
def ContinuesGood (p : PageDesc) : Prop :=
  p.raw ≠ [] ∧ (∃ prods, p.raw.mapM Product.from_dict = Except.ok prods) ∧
    ∃ tok, linkActionOf p.link = LinkAction.next tok

/-- The normalized records of a page (meaningful when every entry normalizes). -/
def normOf (p : PageDesc) : List Product :=
  ((p.raw.mapM Product.from_dict).toOption).getD []

theorem getAllLoop_front (status : String) (front : List PageDesc) :
    ∀ (rest : List HttpResult) (pi0 : Option (List Char)) (acc : List Product),
    (∀ p ∈ front, ContinuesGood p) →
    ∃ (pi1 : Option (List Char)) (reqs : List Request),
      reqs.length = front.length ∧
      (∀ r ∈ reqs, r.limit = 250 ∧ r.status = some status ∧ r.title = none) ∧
      getAllLoop status pi0 acc (front.map mkPage ++ rest)
        = ((getAllLoop status pi1 (acc ++ (front.map normOf).flatten) rest).1,
           reqs ++ (getAllLoop status pi1 (acc ++ (front.map normOf).flatten) rest).2) := by
  induction front with
  | nil =>
    intro rest pi0 acc _
    exact ⟨pi0, [], rfl, by simp, by simp⟩
  | cons p front' ih =>
    intro rest pi0 acc hgood
    obtain ⟨hne, ⟨prods, hprods⟩, tok, htok⟩ := hgood p (List.mem_cons_self _ _)
    obtain ⟨d, ds, hraw⟩ := List.exists_cons_of_ne_nil hne
    obtain ⟨pi1, reqs, hlen, hreq, heq⟩ :=
      ih rest (some tok) (acc ++ prods) (fun q hq => hgood q (List.mem_cons_of_mem _ hq))
    refine ⟨pi1, ⟨250, some status, pi0, none⟩ :: reqs, by simp [hlen], ?_, ?_⟩
    · intro r hr
      rcases List.mem_cons.mp hr with rfl | hr
      · exact ⟨rfl, rfl, rfl⟩
      · exact hreq r hr
    · have hnorm : normOf p = prods := by
        unfold normOf
        rw [hprods]
        rfl
      have hmap : (d :: ds).mapM Product.from_dict = Except.ok prods := hraw ▸ hprods
      show getAllLoop status pi0 acc
          (HttpResult.success ⟨ProductsField.list p.raw, p.link⟩ :: (front'.map mkPage ++ rest)) = _
      rw [hraw]
      simp only [getAllLoop, pyGetProducts, hmap, htok]
      rw [heq]
      simp [hnorm, List.append_assoc]

/-! ## Normalization lemmas -/

theorem mapM_fd_cons_error {y : RawProduct} {t : List RawProduct} {e : PyError}
    (h : Product.from_dict y = Except.error e) :
    (y :: t).mapM Product.from_dict = Except.error e := by
  rw [← List.mapM'_eq_mapM]
  simp only [List.mapM'_cons]
  rw [h]
  rfl

theorem mapM_fd_cons_tail_error {y : RawProduct} {a : Product}
    {t : List RawProduct} {e : PyError} (hy : Product.from_dict y = Except.ok a)
    (ht : t.mapM Product.from_dict = Except.error e) :
    (y :: t).mapM Product.from_dict = Except.error e := by
  rw [← List.mapM'_eq_mapM]
  simp only [List.mapM'_cons]
  rw [hy, List.mapM'_eq_mapM, ht]
  rfl

theorem mapM_error_of_mem {x : RawProduct} {l : List RawProduct} {e0 : PyError}
    (hx : x ∈ l) (hfx : Product.from_dict x = Except.error e0) :
    ∃ e, l.mapM Product.from_dict = Except.error e := by
  induction l with
  | nil => simp at hx
  | cons y t ih =>
    cases hfy : Product.from_dict y with
    | error e => exact ⟨e, mapM_fd_cons_error hfy⟩
    | ok a =>
      rcases List.mem_cons.mp hx with rfl | hx'
      · rw [hfy] at hfx
        cases hfx
      · obtain ⟨e, ht⟩ := ih hx'
        exact ⟨e, mapM_fd_cons_tail_error hfy ht⟩

theorem from_dict_error_of_missing (data : RawProduct)
    (h : data.id = none ∨ data.title = none ∨ data.handle = none ∨
         data.vendor = none ∨ data.product_type = none ∨ data.status = none) :
    ∃ k, Product.from_dict data = Except.error (PyError.keyError k) := by
  obtain ⟨oi, ot, oh, ov, op, os, ovar⟩ := data
  simp only at h
  cases oi <;> cases ot <;> cases oh <;> cases ov <;> cases op <;> cases os <;>
    first
    | exact ⟨_, rfl⟩
    | simp_all

/-- C3: for every raw entry containing all required fields, a non-empty
`variants` list makes the normalized record's `price` and `inventory_quantity`
equal the first variant's (individually optional) fields, while an absent or
empty `variants` list leaves both unset (`none`). -/
theorem c3_variant_derivation (i : Int) (t hd vd pt st : String)
    (vars : Option (List RawVariant)) :
    (∀ fv rest, vars = some (fv :: rest) →
      Product.from_dict ⟨some i, some t, some hd, some vd, some pt, some st, vars⟩
        = Except.ok ⟨i, t, hd, vd, pt, st, fv.price, fv.inventory_quantity⟩) ∧
    ((vars = none ∨ vars = some []) →
      Product.from_dict ⟨some i, some t, some hd, some vd, some pt, some st, vars⟩
        = Except.ok ⟨i, t, hd, vd, pt, st, none, none⟩) := by
  constructor
  · rintro fv rest rfl
    rfl
  · rintro (rfl | rfl) <;> rfl

theorem c3_variant_derivation_witness :
    Product.from_dict ⟨some 7, some "Shirt", some "shirt", some "Acme",
        some "Apparel", some "active",
        some [⟨some "19.99", some 3⟩, ⟨some "29.99", none⟩]⟩
      = Except.ok ⟨7, "Shirt", "shirt", "Acme", "Apparel", "active",
          some "19.99", some 3⟩ ∧
    Product.from_dict ⟨some 8, some "Hat", some "hat", some "Acme",
        some "Apparel", some "draft", none⟩
      = Except.ok ⟨8, "Hat", "hat", "Acme", "Apparel", "draft", none, none⟩ := by
  constructor
  · exact (c3_variant_derivation 7 "Shirt" "shirt" "Acme" "Apparel" "active"
      (some [⟨some "19.99", some 3⟩, ⟨some "29.99", none⟩])).1
      ⟨some "19.99", some 3⟩ [⟨some "29.99", none⟩] rfl
  · exact (c3_variant_derivation 8 "Hat" "hat" "Acme" "Apparel" "draft" none).2
      (Or.inl rfl)

/-- C4: a raw entry missing any one of the required fields `id`, `title`,
`handle`, `vendor`, `product_type`, `status` makes normalization fail with a
`KeyError` (the `MalformedRecord` case), and this error is not caught by
`get_products`, `search_products`, or `get_all_products`: each propagates an
error to the caller instead of returning an empty or partial result. -/
theorem c4_malformed_record_propagates (data : RawProduct)
    (hmiss : data.id = none ∨ data.title = none ∨ data.handle = none ∨
             data.vendor = none ∨ data.product_type = none ∨ data.status = none) :
    (∃ k, Product.from_dict data = Except.error (PyError.keyError k)) ∧
    (∀ (limit : Nat) (status : String) (ps : List RawProduct)
       (link : Option (List Char)), data ∈ ps →
      ∃ e, (get_products limit status
        (HttpResult.success ⟨ProductsField.list ps, link⟩)).1 = Except.error e) ∧
    (∀ (query : String) (limit : Nat) (ps : List RawProduct)
       (link : Option (List Char)), data ∈ ps →
      ∃ e, (search_products query limit
        (HttpResult.success ⟨ProductsField.list ps, link⟩)).1 = Except.error e) ∧
    (∀ (status : String) (front : List PageDesc) (ps : List RawProduct)
       (link : Option (List Char)) (rest : List HttpResult),
      (∀ p ∈ front, ContinuesGood p) → data ∈ ps →
      ∃ e, (get_all_products status
        (front.map mkPage ++ HttpResult.success ⟨ProductsField.list ps, link⟩ :: rest)).1
          = Outcome.raised e) := by
  obtain ⟨k, hk⟩ := from_dict_error_of_missing data hmiss
  refine ⟨⟨k, hk⟩, ?_, ?_, ?_⟩
  · intro limit status ps link hmem
    obtain ⟨e, he⟩ := mapM_error_of_mem hmem hk
    exact ⟨e, he⟩
  · intro query limit ps link hmem
    obtain ⟨e, he⟩ := mapM_error_of_mem hmem hk
    exact ⟨e, he⟩
  · intro status front ps link rest hfront hmem
    obtain ⟨e, he⟩ := mapM_error_of_mem hmem hk
    obtain ⟨d, ds, hps⟩ := List.exists_cons_of_ne_nil (List.ne_nil_of_mem hmem)
    obtain ⟨pi1, reqs, _, _, heq⟩ := getAllLoop_front status front
      (HttpResult.success ⟨ProductsField.list ps, link⟩ :: rest) none [] hfront
    refine ⟨e, ?_⟩
    rw [get_all_products, heq]
    subst hps
    simp only [getAllLoop, pyGetProducts, he]

theorem c4_malformed_record_propagates_witness :
    (∃ k, Product.from_dict ⟨some 9, none, some "h", some "v", some "pt",
        some "active", none⟩ = Except.error (PyError.keyError k)) ∧
    (∃ e, (get_products 50 "active" (HttpResult.success
        ⟨ProductsField.list [⟨some 9, none, some "h", some "v", some "pt",
          some "active", none⟩], none⟩)).1 = Except.error e) ∧
    (∃ e, (search_products "shirt" 50 (HttpResult.success
        ⟨ProductsField.list [⟨some 9, none, some "h", some "v", some "pt",
          some "active", none⟩], none⟩)).1 = Except.error e) ∧
    (∃ e, (get_all_products "active" ([].map mkPage ++ HttpResult.success
        ⟨ProductsField.list [⟨some 9, none, some "h", some "v", some "pt",
          some "active", none⟩], none⟩ :: [])).1 = Outcome.raised e) := by
  obtain ⟨h1, h2, h3, h4⟩ := c4_malformed_record_propagates
    ⟨some 9, none, some "h", some "v", some "pt", some "active", none⟩
    (Or.inr (Or.inl rfl))
  exact ⟨h1,
    h2 50 "active" _ none (List.mem_singleton.mpr rfl),
    h3 "shirt" 50 _ none (List.mem_singleton.mpr rfl),
    h4 "active" [] _ none [] (by simp) (List.mem_singleton.mpr rfl)⟩

/-! ## Claims about the fetch-all loop -/

/-- Sample raw entry with a variant, used by concrete witnesses. -/
def wRaw1 : RawProduct :=
  ⟨some 1, some "A", some "a", some "V", some "T", some "active",
   some [⟨some "10.00", some 5⟩]⟩

/-- Sample raw entry without variants, used by concrete witnesses. -/
def wRaw2 : RawProduct :=
  ⟨some 2, some "B", some "b", some "V", some "T", some "active", none⟩

/-- Sample raw entry with an empty variant list, used by concrete witnesses. -/
def wRaw3 : RawProduct :=
  ⟨some 3, some "C", some "c", some "V", some "T", some "active", some []⟩

/-- Sample `Link` header carrying a `rel="next"` continuation token `tok2`. -/
def wLink : List Char :=
  "<https://shop.myshopify.com/admin/api/2023-10/products.json?limit=250&page_info=tok2>; rel=\"next\"".toList

/-- Sample non-final page (two entries, `rel="next"` header). -/
def wPage1 : PageDesc := ⟨[wRaw1, wRaw2], some wLink⟩

/-- Sample final page (one entry, no `Link` header). -/
def wPage2 : PageDesc := ⟨[wRaw3], none⟩

/-- C1: for a finite run of successful pages in which every page except the
last yields a continuation token and the last is non-empty with no
`rel="next"` marker, `get_all_products` returns exactly the concatenation of
the normalized entries of all pages in page order (entry order within a page
is preserved by `mapM`), and issues exactly one request per page. -/
theorem c1_fetch_all_concatenation (status : String) (front : List PageDesc)
    (lastPg : PageDesc)
    (hfront : ∀ p ∈ front, ContinuesGood p)
    (hlast_ne : lastPg.raw ≠ [])
    (hlast_norm : ∃ prods, lastPg.raw.mapM Product.from_dict = Except.ok prods)
    (hlast_stop : linkActionOf lastPg.link = LinkAction.stop) :
    (get_all_products status ((front ++ [lastPg]).map mkPage)).1
      = Outcome.ok (((front ++ [lastPg]).map normOf).flatten) ∧
    (get_all_products status ((front ++ [lastPg]).map mkPage)).2.length
      = front.length + 1 := by
  obtain ⟨prods, hprods⟩ := hlast_norm
  obtain ⟨d, ds, hraw⟩ := List.exists_cons_of_ne_nil hlast_ne
  obtain ⟨pi1, reqs, hlen, _, heq⟩ :=
    getAllLoop_front status front [mkPage lastPg] none [] hfront
  have hmap : (d :: ds).mapM Product.from_dict = Except.ok prods := hraw ▸ hprods
  have hnorm : normOf lastPg = prods := by
    unfold normOf
    rw [hprods]
    rfl
  have hstep : getAllLoop status pi1 (([] : List Product) ++ (front.map normOf).flatten)
      [mkPage lastPg]
      = (Outcome.ok (([] ++ (front.map normOf).flatten) ++ prods),
         [⟨250, some status, pi1, none⟩]) := by
    show getAllLoop status pi1 _
        (HttpResult.success ⟨ProductsField.list lastPg.raw, lastPg.link⟩ :: []) = _
    rw [hraw]
    simp only [getAllLoop, pyGetProducts, hmap, hlast_stop]
  have hms : (front ++ [lastPg]).map mkPage = front.map mkPage ++ [mkPage lastPg] := by
    simp
  have hfull : get_all_products status ((front ++ [lastPg]).map mkPage)
      = (Outcome.ok (([] ++ (front.map normOf).flatten) ++ prods),
         reqs ++ [⟨250, some status, pi1, none⟩]) := by
    unfold get_all_products
    rw [hms, heq, hstep]
  rw [hfull]
  constructor
  · simp [hnorm]
  · simp [hlen]

theorem c1_fetch_all_concatenation_witness :
    (get_all_products "active" (([wPage1] ++ [wPage2]).map mkPage)).1
      = Outcome.ok ((([wPage1] ++ [wPage2]).map normOf).flatten) ∧
    (get_all_products "active" (([wPage1] ++ [wPage2]).map mkPage)).2.length
      = [wPage1].length + 1 :=
  c1_fetch_all_concatenation "active" [wPage1] wPage2
    (by
      intro p hp
      rw [List.mem_singleton] at hp
      subst hp
      exact ⟨by simp [wPage1], ⟨_, rfl⟩, ⟨_, rfl⟩⟩)
    (by simp [wPage2]) ⟨_, rfl⟩ rfl

/-- C5: a transport or non-2xx failure on the k-th request, after k-1
successful pages that each continued the loop, makes `get_all_products`
report and stop immediately, returning exactly the records of the first k-1
pages without raising; with `front = []` (first-page failure) the result is
the empty sequence. -/
theorem c5_failure_keeps_accumulated (status : String) (front : List PageDesc)
    (rest : List HttpResult) (hfront : ∀ p ∈ front, ContinuesGood p) :
    (get_all_products status (front.map mkPage ++ HttpResult.failure :: rest)).1
      = Outcome.ok ((front.map normOf).flatten) ∧
    (get_all_products status (front.map mkPage ++ HttpResult.failure :: rest)).2.length
      = front.length + 1 := by
  obtain ⟨pi1, reqs, hlen, _, heq⟩ :=
    getAllLoop_front status front (HttpResult.failure :: rest) none [] hfront
  have hstep : getAllLoop status pi1 (([] : List Product) ++ (front.map normOf).flatten)
      (HttpResult.failure :: rest)
      = (Outcome.ok ([] ++ (front.map normOf).flatten),
         [⟨250, some status, pi1, none⟩]) := rfl
  have hfull : get_all_products status (front.map mkPage ++ HttpResult.failure :: rest)
      = (Outcome.ok ([] ++ (front.map normOf).flatten),
         reqs ++ [⟨250, some status, pi1, none⟩]) := by
    unfold get_all_products
    rw [heq, hstep]
  rw [hfull]
  constructor
  · simp
  · simp [hlen]

theorem c5_failure_keeps_accumulated_witness :
    ((get_all_products "active" (([] : List PageDesc).map mkPage
        ++ HttpResult.failure :: [])).1
      = Outcome.ok ((([] : List PageDesc).map normOf).flatten) ∧
     (get_all_products "active" (([] : List PageDesc).map mkPage
        ++ HttpResult.failure :: [])).2.length = ([] : List PageDesc).length + 1) ∧
    ((get_all_products "active" ([wPage1].map mkPage
        ++ HttpResult.failure :: [HttpResult.failure])).1
      = Outcome.ok (([wPage1].map normOf).flatten) ∧
     (get_all_products "active" ([wPage1].map mkPage
        ++ HttpResult.failure :: [HttpResult.failure])).2.length
      = [wPage1].length + 1) :=
  ⟨c5_failure_keeps_accumulated "active" [] [] (by simp),
   c5_failure_keeps_accumulated "active" [wPage1] [HttpResult.failure]
    (by
      intro p hp
      rw [List.mem_singleton] at hp
      subst hp
      exact ⟨by simp [wPage1], ⟨_, rfl⟩, ⟨_, rfl⟩⟩)⟩

/-! ## Single-request operations and request invariants -/

/-- C6: the bounded-page fetch and the title search each issue exactly one
request for every input, and on a transport or non-2xx failure each reports
it and returns the empty sequence, with no retry and no exception reaching
the caller. -/
theorem c6_single_request_policy (limit : Nat) (status query : String) :
    (∀ resp, (get_products limit status resp).2.length = 1 ∧
             (search_products query limit resp).2.length = 1) ∧
    (get_products limit status HttpResult.failure).1 = Except.ok [] ∧
    (search_products query limit HttpResult.failure).1 = Except.ok [] := by
  refine ⟨?_, rfl, rfl⟩
  intro resp
  cases resp with
  | failure => exact ⟨rfl, rfl⟩
  | success pg =>
    cases hp : pyGetProducts pg.products with
    | none => exact ⟨by simp [get_products, hp], by simp [search_products, hp]⟩
    | some ps => exact ⟨by simp [get_products, hp], by simp [search_products, hp]⟩

theorem getAllLoop_limit_250 (status : String) :
    ∀ (trace : List HttpResult) (pi0 : Option (List Char)) (acc : List Product),
      ∀ r ∈ (getAllLoop status pi0 acc trace).2, r.limit = 250 := by
  intro trace
  induction trace with
  | nil =>
    intro pi0 acc r hr
    simp [getAllLoop] at hr
  | cons resp rest ih =>
    intro pi0 acc r hr
    cases resp with
    | failure =>
      simp only [getAllLoop, List.mem_singleton] at hr
      subst hr
      rfl
    | success pg =>
      cases pg with
      | mk products link =>
        cases products with
        | absent =>
          simp only [getAllLoop, pyGetProducts, List.mem_singleton] at hr
          subst hr
          rfl
        | null =>
          simp only [getAllLoop, pyGetProducts, List.mem_singleton] at hr
          subst hr
          rfl
        | list ps =>
          cases ps with
          | nil =>
            simp only [getAllLoop, pyGetProducts, List.mem_singleton] at hr
            subst hr
            rfl
          | cons d ds =>
            cases hm : (d :: ds).mapM Product.from_dict with
            | error e =>
              simp only [getAllLoop, pyGetProducts, hm, List.mem_singleton] at hr
              subst hr
              rfl
            | ok prods =>
              cases hl : linkActionOf link with
              | stop =>
                simp only [getAllLoop, pyGetProducts, hm, hl, List.mem_singleton] at hr
                subst hr
                rfl
              | raiseIndex =>
                simp only [getAllLoop, pyGetProducts, hm, hl, List.mem_singleton] at hr
                subst hr
                rfl
              | next tok =>
                simp only [getAllLoop, pyGetProducts, hm, hl, List.mem_cons] at hr
                rcases hr with rfl | hr
                · rfl
                · exact ih (some tok) (acc ++ prods) r hr
              | stale =>
                simp only [getAllLoop, pyGetProducts, hm, hl, List.mem_cons] at hr
                rcases hr with rfl | hr
                · rfl
                · exact ih pi0 (acc ++ prods) r hr

/-- C9: every request any fetch operation issues carries a `limit` of at most
250: `get_products` and `search_products` send `min limit 250` for every
caller-supplied `limit`, while `get_all_products` always sends exactly 250. -/
theorem c9_limit_cap (limit : Nat) (status query : String) :
    (∀ resp,
      (get_products limit status resp).2 = [⟨min limit 250, some status, none, none⟩] ∧
      (search_products query limit resp).2 = [⟨min limit 250, none, none, some query⟩]) ∧
    min limit 250 ≤ 250 ∧
    (∀ (trace : List HttpResult),
      ∀ r ∈ (get_all_products status trace).2, r.limit = 250) := by
  refine ⟨?_, Nat.min_le_right _ _, ?_⟩
  · intro resp
    cases resp with
    | failure => exact ⟨rfl, rfl⟩
    | success pg =>
      cases hp : pyGetProducts pg.products with
      | none => exact ⟨by simp [get_products, hp], by simp [search_products, hp]⟩
      | some ps => exact ⟨by simp [get_products, hp], by simp [search_products, hp]⟩
  · intro trace r hr
    exact getAllLoop_limit_250 status trace none [] r hr

theorem c9_limit_cap_witness :
    (get_products 400 "active" HttpResult.failure).2
      = [⟨min 400 250, some "active", none, none⟩] ∧
    (search_products "shirt" 400 HttpResult.failure).2
      = [⟨min 400 250, none, none, some "shirt"⟩] ∧
    min 400 250 ≤ 250 ∧
    (⟨250, some "active", none, none⟩ : Request).limit = 250 := by
  obtain ⟨hone, hle, hall⟩ := c9_limit_cap 400 "active" "shirt"
  exact ⟨(hone HttpResult.failure).1, (hone HttpResult.failure).2, hle,
    hall [HttpResult.failure] ⟨250, some "active", none, none⟩
      (List.mem_singleton.mpr rfl)⟩

/-! ## The products key absent or null (C10) -/

/-- Counterexample to C10 as stated: on a successful response whose body maps
`products` to `null`, `get_products` does not return the empty sequence — the
comprehension iterates `None` and a `TypeError` propagates (it is not a
`requests.exceptions.RequestException`, so the `except` clause does not catch
it). -/
theorem c10_null_products_counterexample :
    (get_products 50 "active" (HttpResult.success ⟨ProductsField.null, none⟩)).1
      = Except.error PyError.typeError ∧
    (get_products 50 "active" (HttpResult.success ⟨ProductsField.null, none⟩)).1
      ≠ Except.ok [] := ⟨rfl, fun h => Except.noConfusion h⟩

/-- C10 (amended): on a successful response whose body lacks a `products`
key, all three fetch operations treat it as an empty page — `get_products`
and `search_products` return the empty sequence and `get_all_products`
terminates its loop, returning the accumulator.  When the key maps to `null`,
`get_all_products` likewise terminates (the `None` is falsy), but
`get_products` and `search_products` raise a `TypeError` instead of
returning an empty sequence. -/
theorem c10_missing_products_amended (limit : Nat) (status query sts : String)
    (link : Option (List Char)) (pi0 : Option (List Char)) (acc : List Product)
    (rest : List HttpResult) :
    (get_products limit status (HttpResult.success ⟨ProductsField.absent, link⟩)).1
      = Except.ok [] ∧
    (search_products query limit (HttpResult.success ⟨ProductsField.absent, link⟩)).1
      = Except.ok [] ∧
    getAllLoop sts pi0 acc (HttpResult.success ⟨ProductsField.absent, link⟩ :: rest)
      = (Outcome.ok acc, [⟨250, some sts, pi0, none⟩]) ∧
    getAllLoop sts pi0 acc (HttpResult.success ⟨ProductsField.null, link⟩ :: rest)
      = (Outcome.ok acc, [⟨250, some sts, pi0, none⟩]) ∧
    (get_products limit status (HttpResult.success ⟨ProductsField.null, link⟩)).1
      = Except.error PyError.typeError ∧
    (search_products query limit (HttpResult.success ⟨ProductsField.null, link⟩)).1
      = Except.error PyError.typeError :=
  ⟨rfl, rfl, rfl, rfl, rfl, rfl⟩

/-! ## Termination of the fetch-all loop (C7) -/

/-- A response on which the `while True` loop of `get_all_products` goes on to
the next iteration: a success whose page is a non-empty list that fully
normalizes, and whose `Link` check neither breaks nor raises. -/
def ContinuesLoop (r : HttpResult) : Prop :=
  match r with
  | HttpResult.failure => False
  | HttpResult.success pg =>
    (∃ d ds, pyGetProducts pg.products = some (d :: ds) ∧
      ∃ prods, (d :: ds).mapM Product.from_dict = Except.ok prods) ∧
    (linkActionOf pg.link = LinkAction.stale ∨
      ∃ tok, linkActionOf pg.link = LinkAction.next tok)

theorem getAllLoop_reqs_le (status : String) :
    ∀ (trace : List HttpResult) (pi0 : Option (List Char)) (acc : List Product),
      (getAllLoop status pi0 acc trace).2.length ≤ trace.length := by
  intro trace
  induction trace with
  | nil => intro pi0 acc; simp [getAllLoop]
  | cons resp rest ih =>
    intro pi0 acc
    cases resp with
    | failure => simp [getAllLoop]
    | success pg =>
      cases pg with
      | mk products link =>
        cases products with
        | absent => simp [getAllLoop, pyGetProducts]
        | null => simp [getAllLoop, pyGetProducts]
        | list ps =>
          cases ps with
          | nil => simp [getAllLoop, pyGetProducts]
          | cons d ds =>
            cases hm : (d :: ds).mapM Product.from_dict with
            | error e =>
              simp only [getAllLoop, pyGetProducts, hm]
              simp
            | ok prods =>
              cases hl : linkActionOf link with
              | stop =>
                simp only [getAllLoop, pyGetProducts, hm, hl]
                simp
              | raiseIndex =>
                simp only [getAllLoop, pyGetProducts, hm, hl]
                simp
              | next tok =>
                have := ih (some tok) (acc ++ prods)
                simp only [getAllLoop, pyGetProducts, hm, hl, List.length_cons]
                omega
              | stale =>
                have := ih pi0 (acc ++ prods)
                simp only [getAllLoop, pyGetProducts, hm, hl, List.length_cons]
                omega

theorem getAllLoop_stops (status : String) :
    ∀ (trace : List HttpResult) (k : Nat) (pi0 : Option (List Char))
      (acc : List Product) (hk : k < trace.length),
      ¬ ContinuesLoop (trace.get ⟨k, hk⟩) →
      (getAllLoop status pi0 acc trace).2.length ≤ k + 1 ∧
      ∀ pi2, (getAllLoop status pi0 acc trace).1 ≠ Outcome.outOfTrace pi2 := by
  intro trace
  induction trace with
  | nil =>
    intro k pi0 acc hk
    simp at hk
  | cons resp rest ih =>
    intro k pi0 acc hk hterm
    cases resp with
    | failure =>
      refine ⟨?_, ?_⟩
      · simp [getAllLoop]
      · intro pi2
        simp [getAllLoop]
    | success pg =>
      cases pg with
      | mk products link =>
        cases products with
        | absent => exact ⟨by simp [getAllLoop, pyGetProducts], fun pi2 => by simp [getAllLoop, pyGetProducts]⟩
        | null => exact ⟨by simp [getAllLoop, pyGetProducts], fun pi2 => by simp [getAllLoop, pyGetProducts]⟩
        | list ps =>
          cases ps with
          | nil => exact ⟨by simp [getAllLoop, pyGetProducts], fun pi2 => by simp [getAllLoop, pyGetProducts]⟩
          | cons d ds =>
            cases hm : (d :: ds).mapM Product.from_dict with
            | error e =>
              exact ⟨by simp only [getAllLoop, pyGetProducts, hm]; simp,
                fun pi2 => by simp only [getAllLoop, pyGetProducts, hm]; simp⟩
            | ok prods =>
              cases hl : linkActionOf link with
              | stop =>
                exact ⟨by simp only [getAllLoop, pyGetProducts, hm, hl]; simp,
                  fun pi2 => by simp only [getAllLoop, pyGetProducts, hm, hl]; simp⟩
              | raiseIndex =>
                exact ⟨by simp only [getAllLoop, pyGetProducts, hm, hl]; simp,
                  fun pi2 => by simp only [getAllLoop, pyGetProducts, hm, hl]; simp⟩
              | next tok =>
                cases k with
                | zero =>
                  exact absurd ⟨⟨d, ds, rfl, prods, hm⟩, Or.inr ⟨tok, hl⟩⟩ hterm
                | succ k' =>
                  have hk' : k' < rest.length := by
                    simpa using Nat.lt_of_succ_lt_succ hk
                  obtain ⟨h1, h2⟩ := ih k' (some tok) (acc ++ prods) hk' hterm
                  refine ⟨?_, ?_⟩
                  · simp only [getAllLoop, pyGetProducts, hm, hl, List.length_cons]
                    omega
                  · intro pi2
                    simp only [getAllLoop, pyGetProducts, hm, hl]
                    exact h2 pi2
              | stale =>
                cases k with
                | zero =>
                  exact absurd ⟨⟨d, ds, rfl, prods, hm⟩, Or.inl hl⟩ hterm
                | succ k' =>
                  have hk' : k' < rest.length := by
                    simpa using Nat.lt_of_succ_lt_succ hk
                  obtain ⟨h1, h2⟩ := ih k' pi0 (acc ++ prods) hk' hterm
                  refine ⟨?_, ?_⟩
                  · simp only [getAllLoop, pyGetProducts, hm, hl, List.length_cons]
                    omega
                  · intro pi2
                    simp only [getAllLoop, pyGetProducts, hm, hl]
                    exact h2 pi2

/-- C7: `get_all_products` terminates for every finite remote page sequence —
it never issues more requests than the server delivers pages, and as soon as
some delivered page does not continue the loop (a transport/non-2xx failure,
an empty or missing page, or a `Link` header carrying no usable `rel="next"`
marker), the run completes within that page (at most k+1 requests when page k
is the first such page) instead of running off the end of the trace. -/
theorem c7_loop_terminates (status : String) (trace : List HttpResult) :
    (get_all_products status trace).2.length ≤ trace.length ∧
    (∀ (k : Nat) (hk : k < trace.length), ¬ ContinuesLoop (trace.get ⟨k, hk⟩) →
      (get_all_products status trace).2.length ≤ k + 1 ∧
      ∀ pi2, (get_all_products status trace).1 ≠ Outcome.outOfTrace pi2) :=
  ⟨getAllLoop_reqs_le status trace none [],
   fun k hk hterm => getAllLoop_stops status trace k none [] hk hterm⟩

theorem c7_loop_terminates_witness :
    ((get_all_products "active" [HttpResult.failure]).2.length ≤ 1 ∧
     (get_all_products "active" [HttpResult.failure]).2.length ≤ 0 + 1 ∧
     ∀ pi2, (get_all_products "active" [HttpResult.failure]).1
       ≠ Outcome.outOfTrace pi2) := by
  obtain ⟨h1, h2⟩ := c7_loop_terminates "active" [HttpResult.failure]
  obtain ⟨h3, h4⟩ := h2 0 (by decide) (fun h => h.elim)
  exact ⟨h1, h3, h4⟩

/-! ## Continuation-token extraction (C2) -/

/-- The part of `s` strictly after the first occurrence of `sep` (empty when
`sep` does not occur). -/
def afterBreak (sep s : List Char) : List Char :=
  match breakOn sep s with
  | none => []
  | some p => p.2

/-- Modelled from the spec (sections 6 and 9), not from the source: the
`Link` header is comma-separated directives, a directive is a URL in angle
brackets followed by `; rel="..."`, and the continuation token is the value
of the `page_info` query parameter of that URL (query parameters are
`&`-separated `key=value` pairs after the `?`).  This is the reference
meaning of "the value of the `page_info` query parameter", used to compare
the source's substring extraction against; points at the same directive the
source scans for. -/
def specNextPageInfo (header : List Char) : Option (List Char) :=
  match (pySplit [','] header).find? (fun l => containsSub relNextMark l) with
  | none => none
  | some dir =>
    let url := pyIdx0 ['>'] (afterBreak ['<'] dir)
    let query := afterBreak ['?'] url
    let params := (pySplit ['&'] query).map (fun p =>
      (pyIdx0 ['='] p, afterBreak ['='] p))
    (params.find? (fun kv => kv.1 == "page_info".toList)).map Prod.snd

/-- A `Link` header whose directive URL carries another query parameter whose
name ends in `page_info`, placed before the real `page_info` parameter. -/
def cxHeader : List Char :=
  "<https://shop.myshopify.com/admin/api/2023-10/products.json?limit=250&a_page_info=AAA&page_info=BBB>; rel=\"next\"".toList

/-- Counterexample to C2 as stated: the code's extraction is not the value of
the `page_info` query parameter regardless of other parameters — on
`cxHeader` the code continues with `AAA` (the text after the first substring
occurrence of `page_info=`, which lies inside the parameter named
`a_page_info`), while the `page_info` parameter's value is `BBB`. -/
theorem c2_counterexample :
    linkActionOf (some cxHeader) = LinkAction.next "AAA".toList ∧
    specNextPageInfo cxHeader = some "BBB".toList ∧
    ("AAA".toList : List Char) ≠ "BBB".toList := by
  refine ⟨by decide, by decide, by decide⟩

/-- C2 (amended): for a response whose `Link` header contains `rel="next"`,
the loop takes the first comma-separated chunk containing `rel="next"` and
continues with the text after the first occurrence of `page_info=` in that
chunk, truncated at the first `&` and then the first `>`.  Provided
`page_info=` occurs in the chunk exactly once — at the `page_info` parameter
itself, with the token free of `&` and `>` and followed by `&` or `>` — this
is exactly that parameter's value, verbatim, and it becomes the next
request's `page_info`.  If no directive contains `rel="next"`, the loop
terminates. -/
theorem c2_token_extraction_amended (header pre tok suf chunk : List Char)
    (status : String)
    (hrel : containsSub relNextMark header = true)
    (hfind : (pySplit [','] header).find? (fun l => containsSub relNextMark l)
      = some chunk)
    (hchunk : chunk = pre ++ pageInfoEqCh ++ (tok ++ suf))
    (hpre : ¬ pageInfoEqCh <:+: (pre ++ pageInfoEqCh.dropLast))
    (hone : ¬ pageInfoEqCh <:+: (tok ++ suf))
    (hamp : '&' ∉ tok) (hgt : '>' ∉ tok)
    (hsuf : suf.head? = some '&' ∨ suf.head? = some '>') :
    linkActionOf (some header) = LinkAction.next tok ∧
    (∀ (d : RawProduct) (ds : List RawProduct) (prods : List Product)
       (pi0 : Option (List Char)) (acc : List Product) (rest : List HttpResult),
      (d :: ds).mapM Product.from_dict = Except.ok prods →
      getAllLoop status pi0 acc
          (HttpResult.success ⟨ProductsField.list (d :: ds), some header⟩ :: rest)
        = ((getAllLoop status (some tok) (acc ++ prods) rest).1,
           ⟨250, some status, pi0, none⟩
             :: (getAllLoop status (some tok) (acc ++ prods) rest).2)) ∧
    (∀ h2 : List Char, containsSub relNextMark h2 = false →
      linkActionOf (some h2) = LinkAction.stop) := by
  have hx := extractPageInfo_of_shape pre tok suf hpre hone hamp hgt hsuf
  rw [← hchunk] at hx
  have hact : linkActionOf (some header) = LinkAction.next tok := by
    simp [linkActionOf, hrel, hfind, hx]
  refine ⟨hact, ?_, ?_⟩
  · intro d ds prods pi0 acc rest hm
    simp only [getAllLoop, pyGetProducts, hm, hact]
  · intro h2 hh2
    simp [linkActionOf, hh2]

/-- Decomposition of the witness header `wLink`: everything before the
`page_info=` text. -/
def wPre : List Char :=
  "<https://shop.myshopify.com/admin/api/2023-10/products.json?limit=250&".toList

/-- The token of the witness header. -/
def wTok : List Char := "tok2".toList

/-- The suffix of the witness header after the token. -/
def wSuf : List Char := ">; rel=\"next\"".toList

theorem c2_token_extraction_amended_witness :
    linkActionOf (some wLink) = LinkAction.next wTok ∧
    (∀ h2 : List Char, containsSub relNextMark h2 = false →
      linkActionOf (some h2) = LinkAction.stop) := by
  have h := c2_token_extraction_amended wLink wPre wTok wSuf wLink "active"
    (by decide) (by decide) (by decide) (by decide) (by decide)
    (by decide) (by decide) (Or.inr (by decide))
  exact ⟨h.1, h.2.2⟩

/-! ## JSON export (C8) -/

/-- JSON values, as relevant to the persisted output format. -/
inductive JVal where
  | null
  | jint (n : Int)
  | jstr (s : String)
  | arr (xs : List JVal)
  | obj (fields : List (String × JVal))

/-- Embedding of the per-record dict built by `export_to_json`
(`src/main.py` lines 199-210): the eight keys in source order, Python `None`
becoming JSON `null`. -/
def productToJson (p : Product) : JVal :=
  JVal.obj
    [("id", JVal.jint p.id),
     ("title", JVal.jstr p.title),
     ("handle", JVal.jstr p.handle),
     ("vendor", JVal.jstr p.vendor),
     ("product_type", JVal.jstr p.product_type),
     ("status", JVal.jstr p.status),
     ("price", match p.price with | none => JVal.null | some s => JVal.jstr s),
     ("inventory_quantity",
      match p.inventory_quantity with | none => JVal.null | some n => JVal.jint n)]

/-- Embedding of `export_to_json` (lines 197-215): the JSON array written
wholesale to the file.  `json.dump` and `json.loads` of the Python standard
library are faithful inverses between this value tree and its UTF-8 text
(indent 2), so re-parsing the written file is modelled as recovering this
tree. -/
def export_to_json (products : List Product) : JVal :=
  JVal.arr (products.map productToJson)

/-- Look up a key in a re-parsed JSON object. -/
def jLookup (fields : List (String × JVal)) (k : String) : Option JVal :=
  (fields.find? (fun kv => kv.1 == k)).map Prod.snd

/-- Read a mandatory integer field. -/
def asInt : Option JVal → Option Int
  | some (JVal.jint n) => some n
  | _ => none

/-- Read a mandatory text field. -/
def asStr : Option JVal → Option String
  | some (JVal.jstr s) => some s
  | _ => none

/-- Read the optional price field, `null` meaning unset. -/
def asOptStr : Option JVal → Option (Option String)
  | some JVal.null => some none
  | some (JVal.jstr s) => some (some s)
  | _ => none

/-- Read the optional quantity field, `null` meaning unset. -/
def asOptInt : Option JVal → Option (Option Int)
  | some JVal.null => some none
  | some (JVal.jint n) => some (some n)
  | _ => none

/-- Modelled from the spec (persisted output format, section 6): read one
re-parsed object back into a record, requiring the keys
`id, title, handle, vendor, product_type, status, price, inventory_quantity`
with `null` preserved as an unset price/quantity. -/
def decodeProduct (v : JVal) : Option Product :=
  match v with
  | JVal.obj fields => do
    let i ← asInt (jLookup fields "id")
    let t ← asStr (jLookup fields "title")
    let hd ← asStr (jLookup fields "handle")
    let vd ← asStr (jLookup fields "vendor")
    let pt ← asStr (jLookup fields "product_type")
    let st ← asStr (jLookup fields "status")
    let pr ← asOptStr (jLookup fields "price")
    let qt ← asOptInt (jLookup fields "inventory_quantity")
    pure ⟨i, t, hd, vd, pt, st, pr, qt⟩
  | _ => none

/-- Modelled from the spec: re-parse the persisted JSON array of objects. -/
def decodeProducts (v : JVal) : Option (List Product) :=
  match v with
  | JVal.arr xs => xs.mapM decodeProduct
  | _ => none

theorem decodeProduct_productToJson (p : Product) :
    decodeProduct (productToJson p) = some p := by
  obtain ⟨i, t, hd, vd, pt, st, pr, qt⟩ := p
  cases pr <;> cases qt <;> rfl

theorem mapM_decode_map (ps : List Product) :
    (ps.map productToJson).mapM decodeProduct = some ps := by
  induction ps with
  | nil => rfl
  | cons p t ih =>
    rw [List.map_cons, ← List.mapM'_eq_mapM]
    show (decodeProduct (productToJson p) >>= fun a =>
      (List.mapM' decodeProduct (t.map productToJson)) >>= fun as =>
        pure (a :: as)) = some (p :: t)
    rw [decodeProduct_productToJson p]
    show (List.mapM' decodeProduct (t.map productToJson)) >>=
      (fun as => pure (p :: as)) = some (p :: t)
    rw [List.mapM'_eq_mapM, ih]
    rfl

/-- C8: exporting any sequence of N records and re-parsing the persisted JSON
yields exactly N objects, in the same order, whose eight fields decode back
to exactly the original records, with an unset price or quantity preserved
as `null` (the decoder maps `null` back to unset, so a `0` or `""` there
would not round-trip). -/
theorem c8_export_round_trip (products : List Product) :
    decodeProducts (export_to_json products) = some products ∧
    ∃ xs, export_to_json products = JVal.arr xs ∧ xs.length = products.length := by
  constructor
  · show (products.map productToJson).mapM decodeProduct = some products
    exact mapM_decode_map products
  · exact ⟨products.map productToJson, rfl, by simp⟩
